import Mathlib

/-!
Verification of the zelph mkdocs link rewriter
(`src/mkdocs/replace-invalid-mkdocs-links.py`).

The script processes each subdirectory of `docs/`: it collects the set of
`.md` filenames, and rewrites every markdown link `[label](stem.md)` whose
target is not in that set (and does not contain `://`) into a Wikidata URL.
Before the regex pass, each line undergoes the literal replacement
`[!](!.md)` -> `!` (counted once per line if it changed the line).
A file is overwritten only when its change count is positive; its
transformed text is staged in `<name>.tmp`, which is renamed onto the file
or removed, destroying any pre-existing file of that temporary name.

Strings are modelled as `List Char`.  The Python regex
`\[(.*?)\]\((.*?)\.md\)` (no DOTALL flag) is modelled by an executable
backtracking matcher with exactly the lazy leftmost semantics of the
Python `re` engine, and `str.replace` by a left-to-right non-rescanning
scan.  A Python text line carries `\n` only as its final character and
neither the literal replacement nor the regex can produce or consume a
`\n` (`.` does not match a newline), so processing a file line by line
with terminators is equivalent to splitting the text at `\n`, processing
the pieces, and rejoining with `\n`; `processText` uses the latter form.
Iteration order over `sorted(md_files)` and `sorted(subdirs)` only affects
the order of processing and printing, never any file's result, so the
directory model keeps listing order.
-/

/-- The four characters `.md)` that close a markdown link target. -/
def mdClose : List Char := ['.', 'm', 'd', ')']

/-- The three characters `://` marking an external link target. -/
def protoSep : List Char := [':', '/', '/']

/-- The literal `[!](!.md)` of the special replacement. -/
def bangLit : List Char := ['[', '!', ']', '(', '!', '.', 'm', 'd', ')']

/-- Python's `in` on strings: `pat` occurs as a contiguous substring of `s`. -/
def hasSub (pat : List Char) : List Char → Bool
  | [] => pat.isEmpty
  | c :: cs => pat.isPrefixOf (c :: cs) || hasSub pat cs

/-- Lazy matching of `(.*?)\.md\)`: return the shortest prefix (the stem,
which may not contain a newline, since `.` does not match `\n`) followed by
the literal `.md)`, together with the remainder of the input. -/
def findStem : List Char → Option (List Char × List Char)
  | '.' :: 'm' :: 'd' :: ')' :: rest => some ([], rest)
  | c :: cs =>
    if c = '\n' then none
    else (findStem cs).map fun p => (c :: p.1, p.2)
  | [] => none

/-- Lazy matching of `(.*?)\]\((.*?)\.md\)` (the part of the link regex after
the opening `[`).  The label grows lazily: the first `]` immediately followed
by `(` after which a stem completes is taken; on failure the `]` is absorbed
into the label and the scan continues, exactly as the backtracking Python
engine behaves.  Returns (label, stem, rest-after-match). -/
def findLabel : List Char → Option (List Char × List Char × List Char)
  | [] => none
  | ']' :: '(' :: u =>
    match findStem u with
    | some p => some ([], p.1, p.2)
    | none => (findLabel ('(' :: u)).map fun q => (']' :: q.1, q.2.1, q.2.2)
  | c :: cs =>
    if c = '\n' then none
    else (findLabel cs).map fun q => (c :: q.1, q.2.1, q.2.2)

/-- Attempt to match the link regex `\[(.*?)\]\((.*?)\.md\)` at the start of
the input, returning (label, stem, rest-after-match). -/
def matchAt : List Char → Option (List Char × List Char × List Char)
  | '[' :: cs => findLabel cs
  | _ => none

/-- Python `f.endswith(".md")`. -/
def endsWithMd (n : List Char) : Bool := ['.', 'm', 'd'].isSuffixOf n

/-- Python `base_id.startswith("P")`. -/
def startsWithP : List Char → Bool
  | 'P' :: _ => true
  | _ => false

/-- `https://www.wikidata.org/wiki/` -/
def wikiBase : List Char :=
  ['h', 't', 't', 'p', 's', ':', '/', '/', 'w', 'w', 'w', '.', 'w', 'i',
   'k', 'i', 'd', 'a', 't', 'a', '.', 'o', 'r', 'g', '/', 'w', 'i', 'k',
   'i', '/']

/-- `Property:` -/
def propSeg : List Char := ['P', 'r', 'o', 'p', 'e', 'r', 't', 'y', ':']

/-- The Wikidata URL chosen for a stem: `.../wiki/Property:stem` if the stem
starts with `P`, else `.../wiki/stem`. -/
def wikidataUrl (stem : List Char) : List Char :=
  if startsWithP stem then wikiBase ++ propSeg ++ stem else wikiBase ++ stem

/-- The original text of a matched link `[label](stem.md)` (Python
`match.group(0)`). -/
def linkText (lab stem : List Char) : List Char :=
  '[' :: lab ++ ']' :: '(' :: stem ++ mdClose

/-- The replacement `[label](wikidataUrl)`. -/
def replacementText (lab stem : List Char) : List Char :=
  '[' :: lab ++ ']' :: '(' :: wikidataUrl stem ++ [')']

/-- One pass of `finditer` plus part assembly, fuelled (the fuel only needs
to dominate the length of the input; `scanRewrite` instantiates it).
At each position, if the regex matches, the match is kept verbatim when its
stem contains `://` or the file `stem.md` is in `md`, and otherwise replaced
by the Wikidata link, counting one change; the scan resumes after the match.
Without a match the scan advances one character. -/
def scanF (md : List (List Char)) : Nat → List Char → List Char × Nat
  | _, [] => ([], 0)
  | 0, s => (s, 0)
  | fuel + 1, c :: cs =>
    match matchAt (c :: cs) with
    | none =>
      let p := scanF md fuel cs
      (c :: p.1, p.2)
    | some (lab, stem, rest) =>
      let p := scanF md fuel rest
      if hasSub protoSep stem then (linkText lab stem ++ p.1, p.2)
      else if (stem ++ ['.', 'm', 'd']) ∈ md then (linkText lab stem ++ p.1, p.2)
      else (replacementText lab stem ++ p.1, p.2 + 1)

/-- The regex rewriting pass over one line. -/
def scanRewrite (md : List (List Char)) (s : List Char) : List Char × Nat :=
  scanF md s.length s

/-- Python `line.replace("[!](!.md)", "!")`: left-to-right, non-overlapping,
the replacement is not rescanned. -/
def replaceBang : List Char → List Char
  | '[' :: '!' :: ']' :: '(' :: '!' :: '.' :: 'm' :: 'd' :: ')' :: rest =>
    '!' :: replaceBang rest
  | c :: rest => c :: replaceBang rest
  | [] => []

/-- Processing of a single line: the literal replacement (counted once if it
changed the line), then the regex pass. -/
def processLine (md : List (List Char)) (line : List Char) : List Char × Nat :=
  let r := replaceBang line
  let p := scanRewrite md r
  (p.1, (if r = line then 0 else 1) + p.2)

/-- Split a text at `\n` (separators dropped; rejoining with `\n` restores
the text). -/
def splitOnNl : List Char → List (List Char)
  | [] => [[]]
  | c :: cs =>
    if c = '\n' then [] :: splitOnNl cs
    else (c :: (splitOnNl cs).headI) :: (splitOnNl cs).tail

/-- Rejoin lines with `\n`. -/
def joinNl : List (List Char) → List Char
  | [] => []
  | [l] => l
  | l :: ls => l ++ '\n' :: joinNl ls

/-- Processing of a whole file text: every line is processed independently
and the per-line change counts are summed. -/
def processText (md : List (List Char)) (text : List Char) : List Char × Nat :=
  let ps := (splitOnNl text).map (processLine md)
  (joinNl (ps.map Prod.fst), (ps.map Prod.snd).sum)

/-- The on-disk content of a file after its processing: `os.replace` installs
the rewritten text only when the change count is positive; otherwise the
temporary file is removed and the original is untouched. -/
def fileAfter (md : List (List Char)) (text : List Char) : List Char :=
  let p := processText md text
  if 0 < p.2 then p.1 else text

/-- Decidable wellformedness of a stem `B`: no occurrence of `.md)` starts
strictly inside `B ++ .md)`, so the lazy stem search stops exactly at the
appended `.md)`. -/
def noEarly : List Char → Bool
  | [] => true
  | c :: cs => !(mdClose.isPrefixOf (c :: cs ++ mdClose)) && noEarly cs

/-- The characters `.tmp` appended to a processed filename to form
`temp_file_path = file_path + '.tmp'`. -/
def tmpSuffix : List Char := ['.', 't', 'm', 'p']

/-- Whether `name` is the temporary-file name `n ++ ".tmp"` of one of the
processed `.md` filenames `n`.  Such a file is opened with mode `w`
(truncating any pre-existing file of that name) while `n` is processed, and
is removed (`os.remove`) or renamed onto `n` (`os.replace`) afterwards, so
a pre-existing file with this name does not survive the run. -/
def isTempOfMd (mdNames : List (List Char)) (name : List Char) : Bool :=
  mdNames.any fun n => name = n ++ tmpSuffix

/-- Result of `process_subdirectory`: the directory contents afterwards, the
names of the files that were opened and read, and the three printed
counters. -/
structure SubdirResult where
  files : List (List Char × List Char)
  readNames : List (List Char)
  filesProcessed : Nat
  filesChanged : Nat
  linksChanged : Nat
deriving DecidableEq

/-- `process_subdirectory`: `md_files` is the set of `.md` names of this
subdirectory only; every such file `n` is read and processed against that
set, its transformed text being written to the temporary file `n.tmp`
(opened with mode `w`, truncating any pre-existing file of that name),
which is then renamed onto `n` when the change count is positive and
removed otherwise.  Hence afterwards `n` holds `fileAfter` of its old
content, no file named `n.tmp` for a processed `n` exists any more (a
pre-existing one is destroyed), and every other file is untouched.
Directory listings contain each name once, and the processing order
(`sorted(md_files)`) does not influence the final state, so listing order
is kept. -/
def processSubdirectory (files : List (List Char × List Char)) : SubdirResult :=
  let mdNames := (files.map Prod.fst).filter endsWithMd
  let mdFiles := files.filter fun f => endsWithMd f.1
  { files := (files.filter fun f => !(isTempOfMd mdNames f.1)).map fun f =>
      if endsWithMd f.1 then (f.1, fileAfter mdNames f.2) else f
    readNames := mdFiles.map Prod.fst
    filesProcessed := mdFiles.length
    filesChanged := (mdFiles.filter fun f => 0 < (processText mdNames f.2).2).length
    linksChanged := (mdFiles.map fun f => (processText mdNames f.2).2).sum }

/-- An entry of the root `docs` folder: a plain file (with its content) or a
subdirectory (with its files). -/
inductive DirEntry where
  | file (name content : List Char)
  | dir (name : List Char) (files : List (List Char × List Char))
deriving DecidableEq

/-- Python `os.path.isdir`. -/
def DirEntry.isDir : DirEntry → Bool
  | .dir _ _ => true
  | .file _ _ => false

/-- Effect of the run on one root entry: plain files in `docs/` are never
touched; each subdirectory is processed independently. -/
def entryAfter : DirEntry → DirEntry
  | .file n c => .file n c
  | .dir n fs => .dir n (processSubdirectory fs).files

/-- Outcome of a completed run: the root entries afterwards and whether the
"No subdirectories found in 'docs/'." message was printed. -/
structure RunResult where
  entries : List DirEntry
  printedNoSubdirs : Bool
deriving DecidableEq

/-- The script's `main` (Lean reserves the name `main` for executables):
`os.listdir("docs")` raises `FileNotFoundError` when the root folder is
missing (modelled as `Except.error ()`); with no subdirectories the message
is printed and the run returns; otherwise every subdirectory is processed. -/
def mainRun : Option (List DirEntry) → Except Unit RunResult
  | none => .error ()
  | some entries =>
    if (entries.filter DirEntry.isDir).isEmpty then
      .ok { entries := entries, printedNoSubdirs := true }
    else
      .ok { entries := entries.map entryAfter, printedNoSubdirs := false }

theorem findStem_shape : ∀ u st r, findStem u = some (st, r) →
    u = st ++ mdClose ++ r ∧ '\n' ∉ st := by
  intro u
  induction u with
  | nil => intro st r h; simp [findStem] at h
  | cons c cs ih =>
    intro st r h
    rw [findStem.eq_def] at h
    split at h
    · rename_i rest heq
      injection h with h'
      rw [Prod.mk.injEq] at h'
      obtain ⟨h1, h2⟩ := h'
      subst h1; subst h2
      simp_all [mdClose]
    · rename_i c' cs' hnm h1
      split at h
      · exact absurd h (by simp)
      · rename_i hc
        rw [Option.map_eq_some'] at h
        obtain ⟨p, hp, he⟩ := h
        injection h1 with e1 e2
        subst e1; subst e2
        rw [Prod.mk.injEq] at he
        obtain ⟨e3, e4⟩ := he
        subst e3; subst e4
        obtain ⟨h3, h4⟩ := ih p.1 p.2 hp
        constructor
        · simp [h3]
        · intro hmem
          rcases List.mem_cons.mp hmem with he | hm
          · exact hc he.symm
          · exact h4 hm
    · simp at h

theorem findLabel_shape : ∀ cs l st r, findLabel cs = some (l, st, r) →
    cs = l ++ ']' :: '(' :: (st ++ mdClose ++ r) := by
  intro cs
  induction cs with
  | nil => intro l st r h; simp [findLabel] at h
  | cons c cs ih =>
    intro l st r h
    rw [findLabel.eq_def] at h
    split at h
    · simp at h
    · rename_i u heqx
      injection heqx with e1 e2
      subst e1
      split at h
      · rename_i p hp
        injection h with h'
        rw [Prod.mk.injEq] at h'
        obtain ⟨h1, h2⟩ := h'
        rw [Prod.mk.injEq] at h2
        obtain ⟨h2, h3⟩ := h2
        subst h1; subst h2; subst h3
        obtain ⟨hs, -⟩ := findStem_shape _ p.1 p.2 hp
        simp [e2, hs]
      · rw [Option.map_eq_some'] at h
        obtain ⟨q, hq, he⟩ := h
        rw [Prod.mk.injEq] at he
        obtain ⟨e3, e4⟩ := he
        rw [Prod.mk.injEq] at e4
        obtain ⟨e4, e5⟩ := e4
        subst e3; subst e4; subst e5
        rw [← e2] at hq
        have h3 := ih q.1 q.2.1 q.2.2 hq
        simp [h3]
    · rename_i c' cs' hnm heqx
      injection heqx with e1 e2
      subst e1; subst e2
      split at h
      · simp at h
      · rw [Option.map_eq_some'] at h
        obtain ⟨q, hq, he⟩ := h
        rw [Prod.mk.injEq] at he
        obtain ⟨e3, e4⟩ := he
        rw [Prod.mk.injEq] at e4
        obtain ⟨e4, e5⟩ := e4
        subst e3; subst e4; subst e5
        have h3 := ih q.1 q.2.1 q.2.2 hq
        simp [h3]

theorem matchAt_shape {s l st r : List Char} (h : matchAt s = some (l, st, r)) :
    s = linkText l st ++ r := by
  rw [matchAt.eq_def] at h
  split at h
  · rename_i cs
    have := findLabel_shape cs l st r h
    simp [linkText, this, mdClose]
  · simp at h

theorem matchAt_lt {s l st r : List Char} (h : matchAt s = some (l, st, r)) :
    r.length < s.length := by
  have hs := matchAt_shape h
  rw [hs]
  simp [linkText, mdClose]
  omega

theorem matchAt_head {c : Char} {cs : List Char} (h : c ≠ '[') :
    matchAt (c :: cs) = none := by
  rw [matchAt.eq_def]
  split
  · rename_i he
    injection he with e1 _
    exact absurd e1 h
  · rfl

theorem scanF_nil (md : List (List Char)) : ∀ f, scanF md f [] = ([], 0) := by
  intro f
  cases f <;> rfl

theorem scanF_eq_of_le (md : List (List Char)) :
    ∀ n f₁ f₂ (s : List Char), s.length ≤ n → s.length ≤ f₁ → s.length ≤ f₂ →
      scanF md f₁ s = scanF md f₂ s := by
  intro n
  induction n with
  | zero =>
    intro f₁ f₂ s hn _ _
    have : s = [] := List.length_eq_zero.mp (Nat.le_zero.mp hn)
    subst this
    rw [scanF_nil, scanF_nil]
  | succ n ih =>
    intro f₁ f₂ s hn h1 h2
    cases s with
    | nil => rw [scanF_nil, scanF_nil]
    | cons c cs =>
      cases f₁ with
      | zero => simp at h1
      | succ a =>
        cases f₂ with
        | zero => simp at h2
        | succ b =>
          simp only [scanF]
          cases h : matchAt (c :: cs) with
          | none =>
            simp only [h]
            have := ih a b cs (by simpa using hn) (by simpa using h1) (by simpa using h2)
            rw [this]
          | some m =>
            obtain ⟨lab, stem, rest⟩ := m
            simp only [h]
            have hlt := matchAt_lt h
            simp only [List.length_cons] at hlt h1 h2 hn
            have := ih a b rest (by omega) (by omega) (by omega)
            rw [this]

theorem scanRewrite_fuel {md : List (List Char)} {f : Nat} {s : List Char}
    (h : s.length ≤ f) : scanF md f s = scanRewrite md s :=
  scanF_eq_of_le md f f s.length s h h le_rfl

theorem scanRewrite_nil (md : List (List Char)) : scanRewrite md [] = ([], 0) := rfl

theorem scanRewrite_no {md : List (List Char)} {c : Char} {cs : List Char}
    (h : matchAt (c :: cs) = none) :
    scanRewrite md (c :: cs) = (c :: (scanRewrite md cs).1, (scanRewrite md cs).2) := by
  show scanF md (cs.length + 1) (c :: cs) = _
  simp only [scanF, h]
  rfl

theorem scanRewrite_some {md : List (List Char)} {s l st r : List Char}
    (h : matchAt s = some (l, st, r)) :
    scanRewrite md s =
      if hasSub protoSep st then
        (linkText l st ++ (scanRewrite md r).1, (scanRewrite md r).2)
      else if (st ++ ['.', 'm', 'd']) ∈ md then
        (linkText l st ++ (scanRewrite md r).1, (scanRewrite md r).2)
      else
        (replacementText l st ++ (scanRewrite md r).1, (scanRewrite md r).2 + 1) := by
  cases s with
  | nil => simp [matchAt] at h
  | cons c cs =>
    have hlt := matchAt_lt h
    simp only [List.length_cons] at hlt
    show scanF md (cs.length + 1) (c :: cs) = _
    simp only [scanF, h]
    rw [scanRewrite_fuel (by omega)]

theorem scanRewrite_reconstruct (md : List (List Char)) :
    ∀ n (s : List Char), s.length ≤ n → (scanRewrite md s).2 = 0 →
      (scanRewrite md s).1 = s := by
  intro n
  induction n with
  | zero =>
    intro s hn _
    have : s = [] := List.length_eq_zero.mp (Nat.le_zero.mp hn)
    subst this
    rfl
  | succ n ih =>
    intro s hn h0
    cases s with
    | nil => rfl
    | cons c cs =>
      cases h : matchAt (c :: cs) with
      | none =>
        rw [scanRewrite_no h] at h0 ⊢
        simp only [List.length_cons] at hn
        simp [ih cs (by omega) h0]
      | some m =>
        obtain ⟨l, st, r⟩ := m
        have hsh := matchAt_shape h
        have hlt := matchAt_lt h
        simp only [List.length_cons] at hlt hn
        rw [scanRewrite_some h] at h0 ⊢
        have hr : (scanRewrite md r).1 = r → linkText l st ++ (scanRewrite md r).1 = c :: cs := by
          intro e
          rw [e]
          exact hsh.symm
        by_cases hp : hasSub protoSep st = true
        · rw [if_pos hp] at h0 ⊢
          exact hr (ih r (by omega) h0)
        · rw [if_neg hp] at h0 ⊢
          by_cases hm : (st ++ ['.', 'm', 'd']) ∈ md
          · rw [if_pos hm] at h0 ⊢
            exact hr (ih r (by omega) h0)
          · rw [if_neg hm] at h0
            simp at h0

theorem isPrefixOf_append_iff {p s t : List Char} (h : p.length ≤ s.length) :
    p.isPrefixOf (s ++ t) = p.isPrefixOf s := by
  have h1 : p.isPrefixOf (s ++ t) = true ↔ p <+: s ++ t := List.isPrefixOf_iff_prefix
  have h2 : p.isPrefixOf s = true ↔ p <+: s := List.isPrefixOf_iff_prefix
  have key : p <+: s ++ t ↔ p <+: s := by
    constructor
    · intro hp
      rw [List.prefix_iff_eq_take] at hp ⊢
      rw [hp, List.take_append_eq_append_take]
      have : p.length - s.length = 0 := by omega
      rw [this]
      simp
    · intro hp
      exact hp.trans (List.prefix_append s t)
  cases hb : p.isPrefixOf (s ++ t) with
  | true => exact ((h2.mpr (key.mp (h1.mp hb))).symm)
  | false =>
    cases hb2 : p.isPrefixOf s with
    | true => rw [← hb, h1.mpr (key.mpr (h2.mp hb2))]
    | false => rfl

theorem findStem_append : ∀ B rest : List Char, (∀ c ∈ B, c ≠ '\n') →
    noEarly B = true → findStem (B ++ mdClose ++ rest) = some (B, rest) := by
  intro B
  induction B with
  | nil =>
    intro rest _ _
    show findStem (mdClose ++ rest) = _
    rfl
  | cons c cs ih =>
    intro rest hnl hne
    simp only [noEarly, Bool.and_eq_true, Bool.not_eq_true'] at hne
    obtain ⟨hpre, hne⟩ := hne
    rw [findStem.eq_def]
    split
    · rename_i rest' heq
      exfalso
      have h4 : mdClose.isPrefixOf (c :: cs ++ mdClose ++ rest) = true := by
        rw [List.isPrefixOf_iff_prefix, heq]
        exact ⟨rest', by simp [mdClose]⟩
      have hlen : mdClose.length ≤ (c :: cs ++ mdClose).length := by simp [mdClose]
      rw [show c :: cs ++ mdClose ++ rest = (c :: cs ++ mdClose) ++ rest by simp,
        isPrefixOf_append_iff hlen, hpre] at h4
      exact absurd h4 (by simp)
    · rename_i c' cs' hnm heq
      injection heq with e1 e2
      subst e1
      rw [if_neg (by exact fun hh => hnl c (by simp) hh)]
      rw [show cs' = cs ++ mdClose ++ rest by simpa using e2.symm]
      rw [ih rest (fun x hx => hnl x (by simp [hx])) hne]
      rfl
    · rename_i heq
      exact absurd heq (by simp)

theorem findLabel_append : ∀ A u st r : List Char,
    (∀ c ∈ A, c ≠ '\n' ∧ c ≠ ']') → findStem u = some (st, r) →
    findLabel (A ++ ']' :: '(' :: u) = some (A, st, r) := by
  intro A
  induction A with
  | nil =>
    intro u st r _ hu
    show (match findStem u with
      | some p => some ([], p.1, p.2)
      | none => Option.map (fun q => (']' :: q.1, q.2.1, q.2.2)) (findLabel ('(' :: u))) =
      some ([], st, r)
    rw [hu]
  | cons c cs ih =>
    intro u st r hA hu
    obtain ⟨hnl, hnb⟩ := hA c (by simp)
    have hrec := ih u st r (fun x hx => hA x (by simp [hx])) hu
    show findLabel (c :: (cs ++ ']' :: '(' :: u)) = _
    rw [findLabel.eq_def]
    split
    · rename_i heq
      exact absurd heq (by simp)
    · rename_i u' heq
      injection heq with e1 _
      exact absurd e1 hnb
    · rename_i c' cs' hnm heq
      injection heq with e1 e2
      subst e1
      rw [if_neg hnl, ← e2, hrec]
      rfl

theorem matchAt_append {A B rest : List Char}
    (hA : ∀ c ∈ A, c ≠ '\n' ∧ c ≠ ']') (hBn : ∀ c ∈ B, c ≠ '\n')
    (hBe : noEarly B = true) :
    matchAt ('[' :: A ++ ']' :: '(' :: (B ++ mdClose ++ rest)) = some (A, B, rest) := by
  show findLabel (A ++ ']' :: '(' :: (B ++ mdClose ++ rest)) = _
  exact findLabel_append A _ B rest hA (findStem_append B rest hBn hBe)

theorem scanRewrite_walk (md : List (List Char)) :
    ∀ pre s : List Char, (∀ c ∈ pre, c ≠ '[') →
      scanRewrite md (pre ++ s) = (pre ++ (scanRewrite md s).1, (scanRewrite md s).2) := by
  intro pre
  induction pre with
  | nil => intro s _; simp
  | cons c cs ih =>
    intro s hpre
    have h1 : matchAt (c :: (cs ++ s)) = none := matchAt_head (hpre c (by simp))
    show scanRewrite md (c :: (cs ++ s)) = _
    rw [scanRewrite_no h1, ih s (fun x hx => hpre x (by simp [hx]))]
    simp

theorem linkText_append (A B rest : List Char) :
    linkText A B ++ rest = '[' :: A ++ ']' :: '(' :: (B ++ mdClose ++ rest) := by
  simp [linkText]

theorem scanRewrite_occ_keep {md : List (List Char)} {pre A B post : List Char}
    (hpre : ∀ c ∈ pre, c ≠ '[') (hA : ∀ c ∈ A, c ≠ '\n' ∧ c ≠ ']')
    (hBn : ∀ c ∈ B, c ≠ '\n') (hBe : noEarly B = true)
    (hkeep : hasSub protoSep B = true ∨ (B ++ ['.', 'm', 'd']) ∈ md) :
    scanRewrite md (pre ++ linkText A B ++ post) =
      (pre ++ linkText A B ++ (scanRewrite md post).1, (scanRewrite md post).2) := by
  rw [List.append_assoc, scanRewrite_walk md pre _ hpre, linkText_append,
    scanRewrite_some (matchAt_append hA hBn hBe)]
  rcases hkeep with hk | hk
  · rw [if_pos hk]
    simp [linkText]
  · by_cases hp : hasSub protoSep B = true
    · rw [if_pos hp]
      simp [linkText]
    · rw [if_neg hp, if_pos hk]
      simp [linkText]

theorem scanRewrite_occ_repl {md : List (List Char)} {pre A B post : List Char}
    (hpre : ∀ c ∈ pre, c ≠ '[') (hA : ∀ c ∈ A, c ≠ '\n' ∧ c ≠ ']')
    (hBn : ∀ c ∈ B, c ≠ '\n') (hBe : noEarly B = true)
    (hp : hasSub protoSep B = false) (hm : (B ++ ['.', 'm', 'd']) ∉ md) :
    scanRewrite md (pre ++ linkText A B ++ post) =
      (pre ++ replacementText A B ++ (scanRewrite md post).1, (scanRewrite md post).2 + 1) := by
  rw [List.append_assoc, scanRewrite_walk md pre _ hpre, linkText_append,
    scanRewrite_some (matchAt_append hA hBn hBe)]
  rw [if_neg (by simp [hp]), if_neg hm]
  simp

set_option maxHeartbeats 2000000 in

theorem replaceBang_id : ∀ s : List Char, (∀ c ∈ s, c ≠ '[') → replaceBang s = s := by
  intro s
  induction s with
  | nil => intro _; rfl
  | cons c cs ih =>
    intro h
    rw [replaceBang.eq_def]
    split
    · rename_i rest heq
      injection heq with e1 _
      exact absurd e1 (h c (by simp))
    · rename_i c' rest hnm heq
      injection heq with e1 e2
      subst e1; subst e2
      rw [ih (fun x hx => h x (by simp [hx]))]
    · rename_i heq
      exact absurd heq (by simp)

theorem replaceBang_lit (post : List Char) :
    replaceBang ('[' :: '!' :: ']' :: '(' :: '!' :: '.' :: 'm' :: 'd' :: ')' :: post) =
      '!' :: replaceBang post := by
  simp only [replaceBang]

theorem processLine_zero {md : List (List Char)} {line : List Char}
    (h : (processLine md line).2 = 0) : (processLine md line).1 = line := by
  unfold processLine at h ⊢
  simp only [] at h ⊢
  by_cases hr : replaceBang line = line
  · rw [if_pos hr] at h
    simp only [Nat.zero_add] at h
    rw [hr] at h ⊢
    exact scanRewrite_reconstruct md line.length line le_rfl h
  · rw [if_neg hr] at h
    omega

theorem splitOnNl_ne_nil (s : List Char) : splitOnNl s ≠ [] := by
  cases s with
  | nil => simp [splitOnNl]
  | cons c cs =>
    show (if c = '\n' then [] :: splitOnNl cs
      else (c :: (splitOnNl cs).headI) :: (splitOnNl cs).tail) ≠ []
    by_cases h : c = '\n'
    · simp [h]
    · simp [h]

theorem joinNl_cons (l : List Char) (ls : List (List Char)) (h : ls ≠ []) :
    joinNl (l :: ls) = l ++ '\n' :: joinNl ls := by
  cases ls with
  | nil => exact absurd rfl h
  | cons a as => rfl

theorem join_split : ∀ s : List Char, joinNl (splitOnNl s) = s := by
  intro s
  induction s with
  | nil => rfl
  | cons c cs ih =>
    show joinNl (if c = '\n' then [] :: splitOnNl cs
      else (c :: (splitOnNl cs).headI) :: (splitOnNl cs).tail) = c :: cs
    by_cases h : c = '\n'
    · rw [if_pos h, joinNl_cons _ _ (splitOnNl_ne_nil cs), ih, h]
      rfl
    · rw [if_neg h]
      cases hs : splitOnNl cs with
      | nil => exact absurd hs (splitOnNl_ne_nil cs)
      | cons l ls =>
        rw [hs] at ih
        cases ls with
        | nil =>
          show joinNl [c :: l] = c :: cs
          rw [← ih]
          rfl
        | cons a as =>
          show joinNl ((c :: l) :: a :: as) = c :: cs
          rw [joinNl_cons (c :: l) (a :: as) (by simp), ← ih,
            joinNl_cons l (a :: as) (by simp)]
          rfl

theorem splitOnNl_no_nl {l : List Char} (h : '\n' ∉ l) : splitOnNl l = [l] := by
  induction l with
  | nil => rfl
  | cons c cs ih =>
    show (if c = '\n' then [] :: splitOnNl cs
      else (c :: (splitOnNl cs).headI) :: (splitOnNl cs).tail) = [c :: cs]
    rw [if_neg (by intro e; exact h (by simp [e]))]
    rw [ih (fun hx => h (by simp [hx]))]
    rfl

theorem splitOnNl_append {l1 : List Char} (l2 : List Char) (h : '\n' ∉ l1) :
    splitOnNl (l1 ++ '\n' :: l2) = l1 :: splitOnNl l2 := by
  induction l1 with
  | nil => rfl
  | cons c cs ih =>
    show (if c = '\n' then [] :: splitOnNl (cs ++ '\n' :: l2)
      else (c :: (splitOnNl (cs ++ '\n' :: l2)).headI) ::
        (splitOnNl (cs ++ '\n' :: l2)).tail) = (c :: cs) :: splitOnNl l2
    rw [if_neg (by intro e; exact h (by simp [e]))]
    rw [ih (fun hx => h (by simp [hx]))]
    rfl

theorem processText_zero {md : List (List Char)} {text : List Char}
    (h : (processText md text).2 = 0) : (processText md text).1 = text := by
  unfold processText at h ⊢
  simp only [List.map_map] at h ⊢
  have key : ∀ ls : List (List Char), (ls.map (Prod.snd ∘ processLine md)).sum = 0 →
      ls.map (Prod.fst ∘ processLine md) = ls := by
    intro ls
    induction ls with
    | nil => intro _; rfl
    | cons a as ihl =>
      intro hsum
      simp only [List.map_cons, List.sum_cons, Function.comp_apply] at hsum ⊢
      have h1 : (processLine md a).2 = 0 := by omega
      have h2 : (as.map (Prod.snd ∘ processLine md)).sum = 0 := by omega
      rw [ihl h2, processLine_zero h1]
  rw [key _ h, join_split]

theorem replaceBang_append : ∀ pre s : List Char, (∀ c ∈ pre, c ≠ '[') →
    replaceBang (pre ++ s) = pre ++ replaceBang s := by
  intro pre
  induction pre with
  | nil => intro s _; rfl
  | cons c cs ih =>
    intro s h
    show replaceBang (c :: (cs ++ s)) = _
    rw [replaceBang.eq_def]
    split
    · rename_i rest heq
      injection heq with e1 _
      exact absurd e1 (h c (by simp))
    · rename_i c' rest hnm heq
      injection heq with e1 e2
      subst e1; subst e2
      rw [ih s (fun x hx => h x (by simp [hx]))]
      rfl
    · rename_i heq
      exact absurd heq (by simp)

theorem scanRewrite_id (md : List (List Char)) :
    ∀ s : List Char, (∀ c ∈ s, c ≠ '[') → scanRewrite md s = (s, 0) := by
  intro s
  induction s with
  | nil => intro _; rfl
  | cons c cs ih =>
    intro h
    rw [scanRewrite_no (matchAt_head (h c (by simp)))]
    rw [ih (fun x hx => h x (by simp [hx]))]

theorem hasSub_iff_part {pat s : List Char} : hasSub pat s = true ↔ pat <:+: s := by
  induction s with
  | nil =>
    show pat.isEmpty = true ↔ _
    rw [List.isEmpty_iff]
    constructor
    · intro h; subst h; exact List.nil_infix
    · intro h; exact List.eq_nil_of_infix_nil h
  | cons c cs ih =>
    show (pat.isPrefixOf (c :: cs) || hasSub pat cs) = true ↔ _
    rw [Bool.or_eq_true, ih, List.isPrefixOf_iff_prefix, List.infix_cons_iff]

theorem matchAt_hasSub {s l st r : List Char} (h : matchAt s = some (l, st, r)) :
    hasSub mdClose s = true := by
  rw [hasSub_iff_part, matchAt_shape h, linkText]
  exact ⟨'[' :: l ++ ']' :: '(' :: st, r, by simp⟩

theorem hasSub_tail {pat : List Char} {c : Char} {cs : List Char}
    (h : hasSub pat (c :: cs) = false) : hasSub pat cs = false := by
  by_contra hc
  rw [Bool.not_eq_false] at hc
  have : hasSub pat (c :: cs) = true := by
    rw [hasSub_iff_part] at hc ⊢
    exact List.infix_cons_iff.mpr (Or.inr hc)
  rw [h] at this
  exact absurd this (by simp)

set_option maxHeartbeats 2000000 in
theorem replaceBang_no_close : ∀ s : List Char, hasSub mdClose s = false →
    replaceBang s = s := by
  intro s
  induction s with
  | nil => intro _; rfl
  | cons c cs ih =>
    intro h
    rw [replaceBang.eq_def]
    split
    · rename_i rest heq
      exfalso
      have hin : hasSub mdClose (c :: cs) = true := by
        rw [hasSub_iff_part, heq]
        exact ⟨['[', '!', ']', '(', '!'], rest, by simp [mdClose]⟩
      rw [h] at hin
      exact absurd hin (by simp)
    · rename_i c' rest hnm heq
      injection heq with e1 e2
      subst e1; subst e2
      rw [ih (hasSub_tail h)]
    · rename_i heq
      exact absurd heq (by simp)

theorem scanRewrite_no_close (md : List (List Char)) :
    ∀ s : List Char, hasSub mdClose s = false → scanRewrite md s = (s, 0) := by
  intro s
  induction s with
  | nil => intro _; rfl
  | cons c cs ih =>
    intro h
    cases hm : matchAt (c :: cs) with
    | none => rw [scanRewrite_no hm, ih (hasSub_tail h)]
    | some m =>
      obtain ⟨l, st, r⟩ := m
      rw [matchAt_hasSub hm] at h
      exact absurd h (by simp)

theorem processLine_no_close {md : List (List Char)} {l : List Char}
    (h : hasSub mdClose l = false) : processLine md l = (l, 0) := by
  unfold processLine
  rw [replaceBang_no_close l h]
  show ((scanRewrite md l).1, (if l = l then 0 else 1) + (scanRewrite md l).2) = (l, 0)
  rw [scanRewrite_no_close md l h, if_pos rfl]
  rfl

theorem splitOnNl_headI_prefix : ∀ s : List Char, (splitOnNl s).headI <+: s := by
  intro s
  induction s with
  | nil => exact List.nil_prefix
  | cons c cs ih =>
    show (if c = '\n' then [] :: splitOnNl cs
      else (c :: (splitOnNl cs).headI) :: (splitOnNl cs).tail).headI <+: c :: cs
    by_cases h : c = '\n'
    · rw [if_pos h]
      exact List.nil_prefix
    · rw [if_neg h]
      obtain ⟨t, ht⟩ := ih
      refine ⟨t, ?_⟩
      show (c :: (splitOnNl cs).headI) ++ t = c :: cs
      rw [List.cons_append, ht]

theorem splitOnNl_part : ∀ s l : List Char, l ∈ splitOnNl s → l <:+: s := by
  intro s
  induction s with
  | nil =>
    intro l hl
    simp only [splitOnNl, List.mem_singleton] at hl
    subst hl
    exact List.nil_infix
  | cons c cs ih =>
    intro l hl
    rw [show splitOnNl (c :: cs) = if c = '\n' then [] :: splitOnNl cs
      else (c :: (splitOnNl cs).headI) :: (splitOnNl cs).tail from rfl] at hl
    by_cases h : c = '\n'
    · rw [if_pos h, List.mem_cons] at hl
      rcases hl with hl | hl
      · subst hl; exact List.nil_infix
      · exact List.infix_cons_iff.mpr (Or.inr (ih l hl))
    · rw [if_neg h, List.mem_cons] at hl
      rcases hl with hl | hl
      · subst hl
        apply List.IsPrefix.isInfix
        obtain ⟨t, ht⟩ := splitOnNl_headI_prefix cs
        exact ⟨t, by rw [List.cons_append, ht]⟩
      · exact List.infix_cons_iff.mpr
          (Or.inr (ih l (List.mem_of_mem_tail hl)))

theorem hasSub_of_part {pat l t : List Char} (h : l <:+: t)
    (ht : hasSub pat t = false) : hasSub pat l = false := by
  by_contra hc
  rw [Bool.not_eq_false, hasSub_iff_part] at hc
  have : hasSub pat t = true := hasSub_iff_part.mpr (hc.trans h)
  rw [ht] at this
  exact absurd this (by simp)

theorem processText_no_close {md : List (List Char)} {text : List Char}
    (h : hasSub mdClose text = false) : processText md text = (text, 0) := by
  unfold processText
  have hmap : (splitOnNl text).map (processLine md) =
      (splitOnNl text).map (fun l => (l, 0)) := by
    apply List.map_congr_left
    intro l hl
    exact processLine_no_close (hasSub_of_part (splitOnNl_part text l hl) h)
  rw [hmap]
  simp only [List.map_map]
  rw [Prod.mk.injEq]
  constructor
  · show joinNl ((splitOnNl text).map ((fun p => p.1) ∘ (fun l => ((l, 0) : List Char × Nat)))) = text
    rw [show ((fun (p : List Char × Nat) => p.1) ∘ (fun l => ((l, 0) : List Char × Nat))) = id by rfl]
    rw [List.map_id, join_split]
  · show ((splitOnNl text).map ((fun p => p.2) ∘ (fun l => ((l, 0) : List Char × Nat)))).sum = 0
    rw [show ((fun (p : List Char × Nat) => p.2) ∘ (fun l => ((l, 0) : List Char × Nat))) = fun _ => 0 by rfl]
    simp

theorem scanF_congr {md₁ md₂ : List (List Char)}
    (hmem : ∀ f, f ∈ md₁ ↔ f ∈ md₂) :
    ∀ fuel s, scanF md₁ fuel s = scanF md₂ fuel s := by
  intro fuel
  induction fuel with
  | zero => intro s; cases s <;> rfl
  | succ f ih =>
    intro s
    cases s with
    | nil => rfl
    | cons c cs =>
      cases hm : matchAt (c :: cs) with
      | none =>
        simp only [scanF, hm]
        rw [ih cs]
      | some m =>
        obtain ⟨l, st, r⟩ := m
        simp only [scanF, hm]
        rw [ih r]
        by_cases hp : hasSub protoSep st = true
        · rw [if_pos hp, if_pos hp]
        · rw [if_neg hp, if_neg hp]
          by_cases h1 : (st ++ ['.', 'm', 'd']) ∈ md₁
          · rw [if_pos h1, if_pos ((hmem _).mp h1)]
          · rw [if_neg h1, if_neg (fun hx => h1 ((hmem _).mpr hx))]

theorem processText_congr {md₁ md₂ : List (List Char)}
    (hmem : ∀ f, f ∈ md₁ ↔ f ∈ md₂) (text : List Char) :
    processText md₁ text = processText md₂ text := by
  unfold processText
  have hline : processLine md₁ = processLine md₂ := by
    funext l
    show ((scanRewrite md₁ (replaceBang l)).1,
        (if replaceBang l = l then 0 else 1) + (scanRewrite md₁ (replaceBang l)).2) =
      ((scanRewrite md₂ (replaceBang l)).1,
        (if replaceBang l = l then 0 else 1) + (scanRewrite md₂ (replaceBang l)).2)
    rw [show scanRewrite md₁ (replaceBang l) = scanRewrite md₂ (replaceBang l) from
      scanF_congr hmem _ _]
  rw [hline]

theorem processLine_of_fixed {md : List (List Char)} {line : List Char}
    (hrb : replaceBang line = line) : processLine md line = scanRewrite md line := by
  unfold processLine
  rw [hrb]
  show ((scanRewrite md line).1,
    (if line = line then 0 else 1) + (scanRewrite md line).2) = scanRewrite md line
  rw [if_pos rfl, Nat.zero_add]

theorem processLine_no_bracket {md : List (List Char)} {line : List Char}
    (h : ∀ c ∈ line, c ≠ '[') : processLine md line = (line, 0) := by
  rw [processLine_of_fixed (replaceBang_id line h), scanRewrite_id md line h]

theorem filter_fst_length : ∀ fs : List (List Char × List Char),
    (fs.filter fun f => endsWithMd f.1).length =
      ((fs.map Prod.fst).filter endsWithMd).length := by
  intro fs
  induction fs with
  | nil => rfl
  | cons f fs ih =>
    by_cases h : endsWithMd f.1 = true
    · simp [List.filter_cons, h, ih]
    · simp only [Bool.not_eq_true] at h
      simp [List.filter_cons, h, ih]

/-- C1 is refuted as universally stated: in the one-line file `[X]([A](B.md)`
with an empty local set, the textual occurrence `[A](B.md)` (whose target `B`
has no `://` and whose file `B.md` is absent) is not replaced by
`[A](https://www.wikidata.org/wiki/B)`; the lazy leftmost match instead
takes label `X` and stem `[A](B`, producing
`[X](https://www.wikidata.org/wiki/[A](B)`, which does not contain the
replacement the claim requires. -/
theorem claim_C1_counterexample :
    hasSub ('[' :: 'A' :: ']' :: '(' :: 'B' :: mdClose) "[X]([A](B.md)".data = true ∧
    hasSub protoSep ['B'] = false ∧
    (['B', '.', 'm', 'd'] ∉ ([] : List (List Char))) ∧
    processText [] "[X]([A](B.md)".data =
      ("[X](https://www.wikidata.org/wiki/[A](B)".data, 1) ∧
    hasSub "[A](https://www.wikidata.org/wiki/B)".data
      "[X](https://www.wikidata.org/wiki/[A](B)".data = false := by
  refine ⟨by decide, by decide, by decide, by decide, by decide⟩

/-- C1 (amended): every occurrence that the regex engine actually matches -
leftmost, non-overlapping, with lazy label and stem - of the form
`[A](B.md)` on a line, where `B` does not contain `://` and `B.md` is not in
the local set, is replaced by `[A](wikidataUrl B)`, i.e. by
`[A](https://www.wikidata.org/wiki/Property:B)` when `B` starts with `P` and
`[A](https://www.wikidata.org/wiki/B)` otherwise, and it is counted as one
change; the scan continues after the match.  The hypotheses state that the
decomposition `pre [A](B.md) post` is the leftmost lazy match (no `[` before
it, no `]` or newline inside the label, no early `.md)` inside the stem) and
that the line is untouched by the prior literal `[!](!.md)` replacement. -/
theorem claim_C1_amended {md : List (List Char)} {pre A B post : List Char}
    (hpre : ∀ c ∈ pre, c ≠ '[')
    (hA : ∀ c ∈ A, c ≠ '\n' ∧ c ≠ ']')
    (hBn : ∀ c ∈ B, c ≠ '\n') (hBe : noEarly B = true)
    (hp : hasSub protoSep B = false)
    (hm : (B ++ ['.', 'm', 'd']) ∉ md)
    (hrb : replaceBang (pre ++ linkText A B ++ post) = pre ++ linkText A B ++ post) :
    processLine md (pre ++ linkText A B ++ post) =
      (pre ++ replacementText A B ++ (scanRewrite md post).1,
        (scanRewrite md post).2 + 1) := by
  rw [processLine_of_fixed hrb]
  exact scanRewrite_occ_repl hpre hA hBn hBe hp hm

/-- Witness for C1 (amended): the missing link `[lbl](Q999.md)` in a line
`see [lbl](Q999.md)!` of a subdirectory holding only `other.md` is rewritten
to the Wikidata URL with one change counted. -/
theorem claim_C1_witness :
    processLine ["other.md".data] ("see ".data ++ linkText "lbl".data "Q999".data ++ "!".data) =
      ("see ".data ++ replacementText "lbl".data "Q999".data ++
        (scanRewrite ["other.md".data] "!".data).1,
        (scanRewrite ["other.md".data] "!".data).2 + 1) :=
  claim_C1_amended (by decide) (by decide) (by decide) (by decide) (by decide)
    (by decide) (by decide)

/-- C2: a matched link occurrence `[A](T.md)` whose target text `T` contains
`://` is kept character for character in the output and contributes no
change, regardless of whether `T.md` is in the local set (no membership
hypothesis appears); the hypotheses state that the decomposition is the
leftmost lazy match on the line the matcher sees. -/
theorem claim_C2 {md : List (List Char)} {pre A T post : List Char}
    (hpre : ∀ c ∈ pre, c ≠ '[')
    (hA : ∀ c ∈ A, c ≠ '\n' ∧ c ≠ ']')
    (hTn : ∀ c ∈ T, c ≠ '\n') (hTe : noEarly T = true)
    (hp : hasSub protoSep T = true)
    (hrb : replaceBang (pre ++ linkText A T ++ post) = pre ++ linkText A T ++ post) :
    processLine md (pre ++ linkText A T ++ post) =
      (pre ++ linkText A T ++ (scanRewrite md post).1, (scanRewrite md post).2) := by
  rw [processLine_of_fixed hrb]
  exact scanRewrite_occ_keep hpre hA hTn hTe (Or.inl hp)

/-- Witness for C2: `[x](http://e.md)` is kept verbatim with zero changes
even though `http://e.md` is in the local set. -/
theorem claim_C2_witness :
    processLine ["http://e.md".data]
        ("a ".data ++ linkText "x".data "http://e".data ++ " b".data) =
      ("a ".data ++ linkText "x".data "http://e".data ++
        (scanRewrite ["http://e.md".data] " b".data).1,
        (scanRewrite ["http://e.md".data] " b".data).2) :=
  claim_C2 (by decide) (by decide) (by decide) (by decide) (by decide) (by decide)

/-- C3: a matched link occurrence `[A](B.md)` whose file `B.md` is in the
local set of the subdirectory is kept character for character and is not
counted as a change (this holds whether or not `B` contains `://`, since
both branches keep the match); the hypotheses state that the decomposition
is the leftmost lazy match on the line the matcher sees. -/
theorem claim_C3 {md : List (List Char)} {pre A B post : List Char}
    (hpre : ∀ c ∈ pre, c ≠ '[')
    (hA : ∀ c ∈ A, c ≠ '\n' ∧ c ≠ ']')
    (hBn : ∀ c ∈ B, c ≠ '\n') (hBe : noEarly B = true)
    (hm : (B ++ ['.', 'm', 'd']) ∈ md)
    (hrb : replaceBang (pre ++ linkText A B ++ post) = pre ++ linkText A B ++ post) :
    processLine md (pre ++ linkText A B ++ post) =
      (pre ++ linkText A B ++ (scanRewrite md post).1, (scanRewrite md post).2) := by
  rw [processLine_of_fixed hrb]
  exact scanRewrite_occ_keep hpre hA hBn hBe (Or.inr hm)

/-- Witness for C3: `[other](Q2.md)` is kept verbatim with zero changes when
`Q2.md` is present in the subdirectory. -/
theorem claim_C3_witness :
    processLine ["Q1.md".data, "Q2.md".data]
        ("See ".data ++ linkText "other".data "Q2".data ++ ".".data) =
      ("See ".data ++ linkText "other".data "Q2".data ++
        (scanRewrite ["Q1.md".data, "Q2.md".data] ".".data).1,
        (scanRewrite ["Q1.md".data, "Q2.md".data] ".".data).2) :=
  claim_C3 (by decide) (by decide) (by decide) (by decide) (by decide) (by decide)

/-- C4 is refuted: a literal `(!.md)` that is not preceded by a bracketed
label is NOT replaced.  In the one-line file `x(!.md)y` (any local set; here
the empty one) the code leaves the text unchanged with zero changes, while
the claim requires the output `x(https://www.wikidata.org/wiki/Q363948)y`. -/
theorem claim_C4_counterexample :
    hasSub "(!.md)".data "x(!.md)y".data = true ∧
    processText [] "x(!.md)y".data = ("x(!.md)y".data, 0) ∧
    "x(!.md)y".data ≠ "x(https://www.wikidata.org/wiki/Q363948)y".data := by
  refine ⟨by decide, by decide, by decide⟩

/-- C4 (amended): the only special literal replacement of the line-based
tool is `[!](!.md)` -> `!`, counted as one change for the line; a bare
`(!.md)` not preceded by link syntax is left alone - indeed any line
containing no `[` at all is returned unchanged with zero changes. -/
theorem claim_C4_amended :
    (∀ (md : List (List Char)) (pre post : List Char),
      (∀ c ∈ pre, c ≠ '[') → (∀ c ∈ post, c ≠ '[') →
      processLine md (pre ++ bangLit ++ post) = (pre ++ '!' :: post, 1)) ∧
    (∀ (md : List (List Char)) (line : List Char), (∀ c ∈ line, c ≠ '[') →
      processLine md line = (line, 0)) := by
  constructor
  · intro md pre post hpre hpost
    have hr : replaceBang (pre ++ bangLit ++ post) = pre ++ '!' :: post := by
      rw [List.append_assoc, replaceBang_append pre (bangLit ++ post) hpre]
      rw [show bangLit ++ post =
        '[' :: '!' :: ']' :: '(' :: '!' :: '.' :: 'm' :: 'd' :: ')' :: post from rfl]
      rw [replaceBang_lit post, replaceBang_id post hpost]
    have hne : pre ++ '!' :: post ≠ pre ++ bangLit ++ post := by
      intro he
      have := congrArg List.length he
      simp [bangLit] at this
    unfold processLine
    rw [hr]
    show ((scanRewrite md (pre ++ '!' :: post)).1,
      (if pre ++ '!' :: post = pre ++ bangLit ++ post then 0 else 1) +
        (scanRewrite md (pre ++ '!' :: post)).2) = (pre ++ '!' :: post, 1)
    rw [if_neg hne]
    rw [scanRewrite_id md (pre ++ '!' :: post) ?hnb]
    case hnb =>
      intro c hc
      rcases List.mem_append.mp hc with h1 | h1
      · exact hpre c h1
      · rcases List.mem_cons.mp h1 with h2 | h2
        · subst h2; decide
        · exact hpost c h2
    rfl
  · intro md line h
    exact processLine_no_bracket h

/-- Witness for C4 (amended): `a [!](!.md) b` becomes `a ! b` with one
change, and the bracket-free line `x(!.md)y` is untouched. -/
theorem claim_C4_witness :
    processLine [] ("a ".data ++ bangLit ++ " b".data) = ("a ".data ++ '!' :: " b".data, 1) ∧
    processLine ["q.md".data] "x(!.md)y".data = ("x(!.md)y".data, 0) :=
  ⟨claim_C4_amended.1 [] "a ".data " b".data (by decide) (by decide),
   claim_C4_amended.2 ["q.md".data] "x(!.md)y".data (by decide)⟩

/-- C5 is refuted: the per-file transformation is not idempotent.  On the
one-line file `[A](x[!](!.md.md)` with an empty local set, the first
application matches label `A`, stem `x[!](!.md` and produces
`[A](https://www.wikidata.org/wiki/x[!](!.md)` (one change), whose tail is
a fresh literal `[!](!.md)`; applying the transformation again therefore
performs the special replacement, yielding the different text
`[A](https://www.wikidata.org/wiki/x!` and a second change count of 1,
not 0. -/
theorem claim_C5_counterexample :
    processText [] "[A](x[!](!.md.md)".data =
      ("[A](https://www.wikidata.org/wiki/x[!](!.md)".data, 1) ∧
    processText [] "[A](https://www.wikidata.org/wiki/x[!](!.md)".data =
      ("[A](https://www.wikidata.org/wiki/x!".data, 1) := by
  refine ⟨by decide, by decide⟩

/-- C5 (amended): re-running is idempotent exactly on the files the first
run left alone: whenever a run counts zero changes for a file, the on-disk
content is unchanged and a further run again produces that content with
zero changes; a run that did make changes may change the file again (see
the counterexample). -/
theorem claim_C5_amended {md : List (List Char)} {text : List Char}
    (h : (processText md text).2 = 0) :
    fileAfter md text = text ∧ processText md (fileAfter md text) = (text, 0) := by
  have h1 := processText_zero h
  have hfa : fileAfter md text = text := by
    unfold fileAfter
    show (if 0 < (processText md text).2 then (processText md text).1 else text) = text
    rw [h, if_neg (by omega)]
  refine ⟨hfa, ?_⟩
  rw [hfa]
  rw [Prod.mk.injEq]
  exact ⟨h1, h⟩

/-- Witness for C5 (amended): a file whose only link is locally present is
left alone by every run. -/
theorem claim_C5_witness :
    fileAfter ["Q2.md".data] "See [other](Q2.md).".data = "See [other](Q2.md).".data ∧
    processText ["Q2.md".data] (fileAfter ["Q2.md".data] "See [other](Q2.md).".data) =
      ("See [other](Q2.md).".data, 0) :=
  claim_C5_amended (by decide)

/-- C6: a file whose change count is zero is not overwritten: its on-disk
content after the run is its original content (and even the discarded
temporary text equals the original); in particular a file with no
`.md`-suffixed link target, i.e. no substring `.md)`, counts zero changes
and stays untouched. -/
theorem claim_C6 {md : List (List Char)} {text : List Char} :
    ((processText md text).2 = 0 →
      fileAfter md text = text ∧ (processText md text).1 = text) ∧
    (hasSub mdClose text = false →
      (processText md text).2 = 0 ∧ fileAfter md text = text) := by
  constructor
  · intro h
    refine ⟨?_, processText_zero h⟩
    unfold fileAfter
    show (if 0 < (processText md text).2 then (processText md text).1 else text) = text
    rw [h, if_neg (by omega)]
  · intro h
    have hz := @processText_no_close md text h
    constructor
    · rw [hz]
    · unfold fileAfter
      show (if 0 < (processText md text).2 then (processText md text).1 else text) = text
      rw [hz, if_neg (by omega)]

/-- Witness for C6: a file with no `.md)` substring is processed with zero
changes and keeps its exact content. -/
theorem claim_C6_witness :
    (processText ["a.md".data] "no markdown links here, only text()".data).2 = 0 ∧
    fileAfter ["a.md".data] "no markdown links here, only text()".data =
      "no markdown links here, only text()".data :=
  (@claim_C6 ["a.md".data] "no markdown links here, only text()".data).2
    (by decide)

/-- C7 is refuted for the missing-root half: when the `docs` folder does not
exist, `os.listdir` raises `FileNotFoundError` (modelled as `Except.error`),
so the run terminates with an unhandled error instead of printing the
"no subdirectories found" message and ending gracefully. -/
theorem claim_C7_counterexample : mainRun none = Except.error () := rfl

/-- C7 (amended): when `docs` exists but contains no subdirectories, the
run prints "No subdirectories found in 'docs/'.", modifies nothing and ends
normally; when `docs` is missing, the run ends with the raised
`FileNotFoundError` instead. -/
theorem claim_C7_amended :
    (∀ es : List DirEntry, es.filter DirEntry.isDir = [] →
      mainRun (some es) = Except.ok { entries := es, printedNoSubdirs := true }) ∧
    mainRun none = Except.error () := by
  constructor
  · intro es h
    show (if (es.filter DirEntry.isDir).isEmpty = true then
        (Except.ok (⟨es, true⟩ : RunResult) : Except Unit RunResult)
      else Except.ok (⟨es.map entryAfter, false⟩ : RunResult)) =
      Except.ok (⟨es, true⟩ : RunResult)
    rw [if_pos (by rw [h]; rfl)]
  · rfl

/-- Witness for C7 (amended): a root holding only the plain file `a.md` and
no subdirectory gives the message and leaves the entries unchanged. -/
theorem claim_C7_witness :
    mainRun (some [DirEntry.file "a.md".data "text".data]) =
      Except.ok { entries := [DirEntry.file "a.md".data "text".data],
                  printedNoSubdirs := true } :=
  claim_C7_amended.1 [DirEntry.file "a.md".data "text".data] (by decide)

/-- C8: each line of a file is transformed independently and the regex
cannot match across a newline (no DOTALL), so link syntax split over two
lines is never matched as a link: processing `l1\nl2` is exactly processing
`l1` and `l2` separately, and in particular the split link `[A](B\n.md)` is
returned unchanged with zero changes whatever the local set is. -/
theorem claim_C8 :
    (∀ (md : List (List Char)) (l1 l2 : List Char), '\n' ∉ l1 → '\n' ∉ l2 →
      processText md (l1 ++ '\n' :: l2) =
        ((processLine md l1).1 ++ '\n' :: (processLine md l2).1,
          (processLine md l1).2 + (processLine md l2).2)) ∧
    (∀ md : List (List Char),
      processText md ("[A](B".data ++ '\n' :: ".md)".data) =
        ("[A](B".data ++ '\n' :: ".md)".data, 0)) := by
  have hsplit : ∀ (md : List (List Char)) (l1 l2 : List Char), '\n' ∉ l1 → '\n' ∉ l2 →
      processText md (l1 ++ '\n' :: l2) =
        ((processLine md l1).1 ++ '\n' :: (processLine md l2).1,
          (processLine md l1).2 + (processLine md l2).2) := by
    intro md l1 l2 h1 h2
    unfold processText
    rw [splitOnNl_append l2 h1, splitOnNl_no_nl h2]
    simp only [List.map_cons, List.map_nil, List.sum_cons, List.sum_nil]
    rw [Prod.mk.injEq]
    constructor
    · rw [joinNl_cons _ _ (by simp)]
      rfl
    · omega
  refine ⟨hsplit, ?_⟩
  intro md
  rw [hsplit md _ _ (by decide) (by decide)]
  rw [@processLine_no_close md "[A](B".data (by decide),
    @processLine_no_bracket md ".md)".data (by decide)]
  rfl

/-- Witness for C8: the two-line text `ab\n[x](y.md)` is processed line by
line. -/
theorem claim_C8_witness :
    processText [] ("ab".data ++ '\n' :: "[x](y.md)".data) =
      ((processLine [] "ab".data).1 ++ '\n' :: (processLine [] "[x](y.md)".data).1,
        (processLine [] "ab".data).2 + (processLine [] "[x](y.md)".data).2) :=
  claim_C8.1 [] "ab".data "[x](y.md)".data (by decide) (by decide)

/-- C9 is refuted for non-`.md` files inside subdirectories: for every
processed file `n` the script opens the temporary `n.tmp` with mode `w`
(truncating any pre-existing file of that name) and finally removes or
renames it, so a pre-existing non-`.md` file named `n.tmp` is rewritten
and destroyed.  In a subdirectory holding `a.md` (content `x`, no links,
zero changes) next to the non-`.md` file `a.md.tmp` (content `precious`),
the run deletes `a.md.tmp`: the resulting listing holds only `a.md`. -/
theorem claim_C9_counterexample :
    endsWithMd "a.md.tmp".data = false ∧
    ("a.md.tmp".data, "precious".data) ∈
      [("a.md".data, "x".data), ("a.md.tmp".data, "precious".data)] ∧
    (processSubdirectory
        [("a.md".data, "x".data), ("a.md.tmp".data, "precious".data)]).files =
      [("a.md".data, "x".data)] ∧
    ("a.md.tmp".data, "precious".data) ∉
      (processSubdirectory
        [("a.md".data, "x".data), ("a.md.tmp".data, "precious".data)]).files := by
  refine ⟨by decide, by decide, by decide, by decide⟩

/-- C9 (amended): plain files in the root `docs/` directory are never
rewritten by a run (they survive in the result exactly as they were); a
file inside a subdirectory whose name does not end in `.md` keeps its exact
content unless its name is `n.tmp` for one of the subdirectory's `.md`
filenames `n` - such a file is truncated by the temporary-file handling and
removed or renamed away, so it never survives the run; only `.md`-named
files are ever opened and read; and the reported files-processed total of a
subdirectory counts exactly its `.md` filenames. -/
theorem claim_C9_amended :
    (∀ n c : List Char, entryAfter (DirEntry.file n c) = DirEntry.file n c) ∧
    (∀ (es : List DirEntry) (res : RunResult) (n c : List Char),
      mainRun (some es) = Except.ok res → DirEntry.file n c ∈ es →
        DirEntry.file n c ∈ res.entries) ∧
    (∀ (fs : List (List Char × List Char)) (n c : List Char),
      (n, c) ∈ fs → endsWithMd n = false →
      isTempOfMd ((fs.map Prod.fst).filter endsWithMd) n = false →
        (n, c) ∈ (processSubdirectory fs).files) ∧
    (∀ (fs : List (List Char × List Char)) (n c : List Char),
      isTempOfMd ((fs.map Prod.fst).filter endsWithMd) n = true →
        (n, c) ∉ (processSubdirectory fs).files) ∧
    (∀ (fs : List (List Char × List Char)) (n : List Char),
      n ∈ (processSubdirectory fs).readNames → endsWithMd n = true) ∧
    (∀ fs : List (List Char × List Char),
      (processSubdirectory fs).filesProcessed =
        ((fs.map Prod.fst).filter endsWithMd).length) := by
  refine ⟨fun n c => rfl, ?_, ?_, ?_, ?_, ?_⟩
  · intro es res n c hrun hmem
    have : mainRun (some es) = (if (es.filter DirEntry.isDir).isEmpty = true then
        (Except.ok (⟨es, true⟩ : RunResult) : Except Unit RunResult)
      else Except.ok (⟨es.map entryAfter, false⟩ : RunResult)) := rfl
    rw [this] at hrun
    split at hrun
    · injection hrun with he
      rw [← he]
      exact hmem
    · injection hrun with he
      rw [← he]
      show DirEntry.file n c ∈ es.map entryAfter
      have := List.mem_map_of_mem entryAfter hmem
      rwa [show entryAfter (DirEntry.file n c) = DirEntry.file n c from rfl] at this
  · intro fs n c hmem hnmd hnt
    show (n, c) ∈ (fs.filter fun f =>
        !(isTempOfMd ((fs.map Prod.fst).filter endsWithMd) f.1)).map fun f =>
      if endsWithMd f.1 then (f.1, fileAfter ((fs.map Prod.fst).filter endsWithMd) f.2) else f
    have hf : (n, c) ∈ fs.filter fun f =>
        !(isTempOfMd ((fs.map Prod.fst).filter endsWithMd) f.1) := by
      rw [List.mem_filter]
      refine ⟨hmem, ?_⟩
      show (!(isTempOfMd ((fs.map Prod.fst).filter endsWithMd) n)) = true
      rw [hnt]
      rfl
    have := List.mem_map_of_mem (fun f =>
      if endsWithMd f.1 then (f.1, fileAfter ((fs.map Prod.fst).filter endsWithMd) f.2) else f) hf
    simpa [hnmd] using this
  · intro fs n c ht hmem
    have hm : (n, c) ∈ (fs.filter fun f =>
        !(isTempOfMd ((fs.map Prod.fst).filter endsWithMd) f.1)).map fun f =>
      if endsWithMd f.1 then (f.1, fileAfter ((fs.map Prod.fst).filter endsWithMd) f.2) else f := hmem
    obtain ⟨f, hf, he⟩ := List.mem_map.mp hm
    have hfil : (!(isTempOfMd ((fs.map Prod.fst).filter endsWithMd) f.1)) = true :=
      (List.mem_filter.mp hf).2
    have hn : f.1 = n := by
      by_cases hmd : endsWithMd f.1 = true
      · rw [if_pos hmd, Prod.mk.injEq] at he
        exact he.1
      · rw [if_neg hmd] at he
        rw [he]
    rw [hn, ht] at hfil
    exact absurd hfil (by simp)
  · intro fs n hmem
    have hm : n ∈ (fs.filter fun f => endsWithMd f.1).map Prod.fst := hmem
    obtain ⟨f, hf, he⟩ := List.mem_map.mp hm
    have := List.mem_filter.mp hf
    rw [← he]
    exact this.2
  · intro fs
    show (fs.filter fun f => endsWithMd f.1).length = _
    exact filter_fst_length fs

/-- Witness for C9 (amended): in a root with the plain file `r.md` and a
subdirectory holding `notes.txt` and `b.md`, the run keeps the root file,
keeps `notes.txt` byte for byte (its name is not a temporary name), deletes
a pre-existing `b.md.tmp`, reads only `b.md`, and reports one processed
file. -/
theorem claim_C9_witness :
    entryAfter (DirEntry.file "r.md".data "root".data) =
      DirEntry.file "r.md".data "root".data ∧
    ("notes.txt".data, "hello".data) ∈
      (processSubdirectory [("notes.txt".data, "hello".data), ("b.md".data, "x".data)]).files ∧
    ("b.md.tmp".data, "stale".data) ∉
      (processSubdirectory [("b.md".data, "x".data), ("b.md.tmp".data, "stale".data)]).files ∧
    endsWithMd "b.md".data = true ∧
    (processSubdirectory [("notes.txt".data, "hello".data), ("b.md".data, "x".data)]).filesProcessed =
      (([ "notes.txt".data, "b.md".data ] : List (List Char)).filter endsWithMd).length :=
  ⟨claim_C9_amended.1 "r.md".data "root".data,
   claim_C9_amended.2.2.1 _ "notes.txt".data "hello".data (by simp) (by decide) (by decide),
   claim_C9_amended.2.2.2.1 [("b.md".data, "x".data), ("b.md.tmp".data, "stale".data)]
     "b.md.tmp".data "stale".data (by decide),
   claim_C9_amended.2.2.2.2.1 [("notes.txt".data, "hello".data), ("b.md".data, "x".data)]
     "b.md".data (by decide),
   claim_C9_amended.2.2.2.2.2 _⟩

/-- C10: for a fixed file text, the produced text and change count depend
on the local `.md` filename set only through membership: any two runs whose
local sets contain the same filenames (regardless of order or repetition,
and regardless of any other file or subdirectory, which do not appear as
inputs at all) produce the identical result. -/
theorem claim_C10 {md₁ md₂ : List (List Char)}
    (hmem : ∀ f, f ∈ md₁ ↔ f ∈ md₂) (text : List Char) :
    processText md₁ text = processText md₂ text :=
  processText_congr hmem text

/-- Witness for C10: duplicated and reordered local sets give the same
result on a file with one local and one missing link. -/
theorem claim_C10_witness :
    processText ["b.md".data, "a.md".data, "a.md".data]
        "See [x](a.md) and [y](q.md).".data =
      processText ["a.md".data, "b.md".data]
        "See [x](a.md) and [y](q.md).".data :=
  claim_C10 (by intro f; simp only [List.mem_cons, List.not_mem_nil, or_false]; tauto) _
